import Mathlib

/-!
# Verification of the ClearURLs addon core (`src/clearurls.js`)

This file embeds the rule-matching and URL-rewriting engine of the addon and
proves/refutes the frozen claims about it.

Embedding choices (documented once here):

* JavaScript regular expressions are embedded as an abstract syntax tree
  (`Regex`) rather than as pattern strings: the source always builds its
  regexes from rule strings via `new RegExp(rule, flags)`, and every use site
  compiles with the `"i"` flag (field rules, raw rules, URL patterns,
  exceptions, redirections) or uses patterns made of case-less punctuation
  (`"\\?&"`, `"#&"`).  The matcher below therefore compares characters
  case-insensitively via ASCII lower-casing, which is JavaScript's
  canonicalisation on the ASCII range.
* The matcher reproduces the backtracking semantics relevant to this code:
  leftmost match, alternatives tried left to right, greedy quantifiers, a
  quantifier iteration that consumes nothing terminates the loop, `.` does not
  match line terminators.  `String.prototype.replace` with a `g` flag removes
  every non-overlapping match scanning left to right; without `g` it replaces
  the first match only; with a plain-string pattern it replaces the first
  literal occurrence.
* Strings are Lean `String`s (lists of characters); machine-level UTF-16
  details are not modelled.
* Effects that do not feed back into the returned values — the activity log
  (`pushToLog`), badge counters (`increaseBadged`, `increaseGlobalURLCounter`),
  `saveOnDisk`/`deferSaveOnDisk` persistence, and tab updates — are omitted;
  the claims under study are about returned results and recorded statuses.
* Helper functions that the repository uses but whose definitions are not in
  the given sources (`tools.js`: `existsFields`, `existsFragments`,
  `extractFileds`, `extractFragments`, `rmEmpty`, `decodeURL`,
  `checkLocalURL`, `storeHashStatus`, `$.trim`) are modelled from the
  specification; each carries a doc comment starting `Modelled from the
  spec:`.
-/

/-! ## A JavaScript-style regular-expression engine -/

/-- Abstract syntax of the regular expressions the source builds.
`cls neg cs` is a character class `[...]` (`neg = true` for `[^...]`),
`anyc` is `.`, `group n r` is a capturing group `(r)` with its JS group
index `n`. -/
inductive Regex where
  | eps : Regex
  | chr : Char → Regex
  | anyc : Regex
  | cls : Bool → List Char → Regex
  | cat : Regex → Regex → Regex
  | alt : Regex → Regex → Regex
  | star : Regex → Regex
  | group : Nat → Regex → Regex
deriving DecidableEq

/-- ASCII lower-casing on character codes, JavaScript's case-insensitive
canonicalisation on the ASCII range. -/
def lowN (n : Nat) : Nat := if 65 ≤ n ∧ n ≤ 90 then n + 32 else n

/-- Case-insensitive character comparison (the `"i"` flag). -/
def ciEq (c d : Char) : Bool := lowN c.toNat == lowN d.toNat

/-- JS line terminators, which `.` does not match. -/
def isLineTerm (c : Char) : Bool :=
  c == '\n' || c == '\r' || c.toNat == 0x2028 || c.toNat == 0x2029

/-- Does character `c` satisfy class `cls neg cs` (case-insensitively)? -/
def clsOK (neg : Bool) (cs : List Char) (c : Char) : Bool :=
  if neg then !(cs.any (ciEq c)) else cs.any (ciEq c)

/-- Captured groups of one match attempt: group index paired with the
captured text; for a group index set several times, the entry added last
(earlier in the list) wins. -/
abbrev Groups := List (Nat × String)

/-- All outcomes of one match attempt, in backtracking priority order.
Each entry is the remaining input after the matched prefix, with captures. -/
abbrev MRes := List (List Char × Groups)

/-- Greedy Kleene-star driver: given the matcher `m` of the body, try as many
body iterations as possible (iterations that consume nothing are discarded,
as in JS), preferring more iterations; the fuel bounds the number of
iterations and is always at least the input length at top level. -/
def starM (m : List Char → MRes) : Nat → List Char → MRes
  | 0, cs => [(cs, [])]
  | f + 1, cs =>
      ((m cs).flatMap fun p =>
        if p.1.length < cs.length then
          (starM m f p.1).map fun q => (q.1, q.2 ++ p.2)
        else []) ++ [(cs, [])]

/-- The backtracking matcher: all ways `r` can match a prefix of the input,
in JS priority order (leftmost alternatives first, greedy quantifiers). -/
def mtch : Regex → Nat → List Char → MRes
  | .eps, _, cs => [(cs, [])]
  | .chr _, _, [] => []
  | .chr c, _, d :: cs => if ciEq d c then [(cs, [])] else []
  | .anyc, _, [] => []
  | .anyc, _, d :: cs => if isLineTerm d then [] else [(cs, [])]
  | .cls _ _, _, [] => []
  | .cls neg l, _, d :: cs => if clsOK neg l d then [(cs, [])] else []
  | .cat r1 r2, f, cs =>
      (mtch r1 f cs).flatMap fun p =>
        (mtch r2 f p.1).map fun q => (q.1, q.2 ++ p.2)
  | .alt r1 r2, f, cs => mtch r1 f cs ++ mtch r2 f cs
  | .star r, f, cs => starM (mtch r f) f cs
  | .group n r, f, cs =>
      (mtch r f cs).map fun p =>
        (p.1, (n, String.mk (cs.take (cs.length - p.1.length))) :: p.2)

/-- Match attempt at the current position, with enough fuel for every
star to iterate once per remaining character. -/
def rmatch (r : Regex) (cs : List Char) : MRes := mtch r (cs.length + 1) cs

/-- Scan the input left to right for the first position with a match and
return that match's captures (`RegExp.prototype.exec` / `test`). -/
def searchF (r : Regex) : Nat → List Char → Option Groups
  | _, [] => ((rmatch r []).head?).map (·.2)
  | 0, _ => none
  | f + 1, c :: cs =>
      match (rmatch r (c :: cs)).head? with
      | some p => some p.2
      | none => searchF r f cs

def searchL (r : Regex) (cs : List Char) : Option Groups := searchF r cs.length cs

/-- JS `regex.test(s)` with the `"i"` flag. -/
def testR (r : Regex) (s : String) : Bool := (searchL r s.data).isSome

/-- Value of capture group 1 of the first match (`regex.exec(s)[1]`);
`none` models JavaScript `undefined` (group unset or absent). -/
def execG1 (r : Regex) (s : String) : Option String :=
  match searchL r s.data with
  | some g => (g.find? fun p => p.1 == 1).map (·.2)
  | none => none

/-- Global replacement `s.replace(new RegExp(r, "gi"), "")`: delete every non-overlapping
match, scanning left to right; empty matches delete nothing and the scan
advances one character past them. -/
def replAllF (r : Regex) : Nat → List Char → List Char
  | _, [] => []
  | 0, cs => cs
  | f + 1, c :: cs =>
      match (rmatch r (c :: cs)).head? with
      | some p => if p.1.length ≤ cs.length then replAllF r f p.1 else c :: replAllF r f cs
      | none => c :: replAllF r f cs

def replAllS (r : Regex) (s : String) : String := String.mk (replAllF r s.data.length s.data)

/-- First-match replacement `s.replace(pattern, rep)` without the `g` flag: replace the first match
only. -/
def replFirstF (r : Regex) (rep : List Char) : Nat → List Char → List Char
  | _, [] => if (rmatch r []).isEmpty then [] else rep
  | 0, cs => cs
  | f + 1, c :: cs =>
      match (rmatch r (c :: cs)).head? with
      | some p => rep ++ p.1
      | none => c :: replFirstF r rep f cs

def replFirstS (r : Regex) (rep : String) (s : String) : String :=
  String.mk (replFirstF r rep.data s.data.length s.data)

/-- The literal regex spelling a word (each character matched up to case). -/
def litL : List Char → Regex
  | [] => .eps
  | c :: cs => .cat (.chr c) (litL cs)

def litS (s : String) : Regex := litL s.data

/-- Plus: `r+` is `r` followed by `r*` (greedy). -/
def plusR (r : Regex) : Regex := .cat r (.star r)

/-! ## Global data and settings (`storage`, `clearurls.js` globals) -/

/-- The `siteBlockedAlert` sentinel (`clearurls.js` line 27). -/
def siteBlockedAlert : String := "javascript:void(0)"

/-- The slice of the persisted `storage` object that the embedded functions
read. -/
structure Storage where
  globalStatus : Bool
  localHostsSkipping : Bool
  domainBlocking : Bool
  referralMarketing : Bool
  pingBlocking : Bool
  pingRequestTypes : List String
deriving DecidableEq

/-! ## Helpers from `tools.js` (not among the given sources), modelled from
the specification -/

/-- Modelled from the spec: `existsFields` — "if a query string exists"
(§4.2 step 5); a query exists when the URL contains a `?` with at least one
character after it. -/
def existsFields (url : String) : Bool :=
  match url.data.dropWhile (· ≠ '?') with
  | _ :: _ :: _ => true
  | _ => false

/-- Modelled from the spec: `existsFragments` — a fragment exists when the
URL contains a `#` with at least one character after it. -/
def existsFragments (url : String) : Bool :=
  match url.data.dropWhile (· ≠ '#') with
  | _ :: _ :: _ => true
  | _ => false

/-- Split on `&` or the HTML-escaped ampersand `&amp;` (case-insensitively,
the escaped form preferred at each position), as the spec's "split it into an
ordered sequence of `name[=value]` tokens on `&`/HTML-escaped `&`". `acc`
holds the current token reversed. -/
def splitAmp (acc : List Char) : List Char → List String
  | [] => [String.mk acc.reverse]
  | '&' :: a :: m :: p :: s :: cs =>
      if ciEq a 'a' && ciEq m 'm' && ciEq p 'p' && s == ';' then
        String.mk acc.reverse :: splitAmp [] cs
      else
        String.mk acc.reverse :: splitAmp [] (a :: m :: p :: s :: cs)
  | '&' :: cs => String.mk acc.reverse :: splitAmp [] cs
  | c :: cs => splitAmp (c :: acc) cs

/-- Modelled from the spec: `extractFileds` (the source's spelling) — the
ordered `name[=value]` tokens of the query string: the text after the first
`?`, up to a following `#`, split on ampersands. -/
def extractFileds (url : String) : List String :=
  if existsFields url then
    splitAmp [] (((url.data.dropWhile (· ≠ '?')).drop 1).takeWhile (· ≠ '#'))
  else []

/-- Modelled from the spec: `extractFragments` — the tokens of the fragment:
the text after the first `#`, split on ampersands. -/
def extractFragments (url : String) : List String :=
  if existsFragments url then
    splitAmp [] ((url.data.dropWhile (· ≠ '#')).drop 1)
  else []

/-- Modelled from the spec: `rmEmpty` — drop empty tokens. -/
def rmEmpty (l : List String) : List String := l.filter (· ≠ "")

def hexVal (c : Char) : Option Nat :=
  if '0' ≤ c ∧ c ≤ '9' then some (c.toNat - 48)
  else if 'a' ≤ c ∧ c ≤ 'f' then some (c.toNat - 87)
  else if 'A' ≤ c ∧ c ≤ 'F' then some (c.toNat - 55)
  else none

def decodeChars : List Char → List Char
  | [] => []
  | '%' :: h1 :: h2 :: cs =>
      match hexVal h1, hexVal h2 with
      | some a, some b => Char.ofNat (16 * a + b) :: decodeChars cs
      | _, _ => '%' :: decodeChars (h1 :: h2 :: cs)
  | c :: cs => c :: decodeChars cs

/-- Modelled from the spec: `decodeURL` — "URL-decode it" (§4.2 step 4):
percent-escapes are decoded to the escaped character (multi-byte UTF-8
sequences are not reassembled in this model). -/
def decodeURL (url : String) : String := String.mk (decodeChars url.data)

/-- Modelled from the spec: `checkLocalURL` — "the URL resolves to a
loopback/private/internal host" (§4.2 step 1). The host is the text between
`://` and the next `/`, `:`, `?` or `#`. -/
def hostOf (url : String) : String :=
  match url.splitOn "://" with
  | _ :: rest :: _ => String.mk (rest.data.takeWhile fun c =>
      c ≠ '/' ∧ c ≠ ':' ∧ c ≠ '?' ∧ c ≠ '#')
  | _ => ""

def checkLocalURL (url : String) : Bool :=
  let h := hostOf url
  h == "localhost" || h == "127.0.0.1" || h == "0.0.0.0" ||
  h.startsWith "192.168." || h.startsWith "10." || h.startsWith "172.16."

/-! ## The Provider object (`clearurls.js` lines 302-535)

A provider's rule collections are JS objects keyed by the rule (here: by the
regex); insertion keeps first-insertion order and re-inserting an existing
key is a no-op, deleting filters the key out. -/

def insertKey (l : List Regex) (r : Regex) : List Regex :=
  if r ∈ l then l else l ++ [r]

def removeKey (l : List Regex) (r : Regex) : List Regex := l.filter (· ≠ r)

structure Provider where
  name : String
  urlPattern : Regex
  canceling : Bool
  forceRedirection : Bool
  enabled_rules : List Regex
  disabled_rules : List Regex
  enabled_rawRules : List Regex
  disabled_rawRules : List Regex
  enabled_referralMarketing : List Regex
  disabled_referralMarketing : List Regex
  enabled_exceptions : List Regex
  disabled_exceptions : List Regex
  enabled_redirections : List Regex
  disabled_redirections : List Regex
deriving DecidableEq

/-- The `Provider` constructor: a `completeProvider` pre-inserts the rule
`".*"` into its enabled field rules. -/
def newProvider (name : String) (completeProvider forceRedirection : Bool) : Provider where
  name := name
  urlPattern := .eps
  canceling := completeProvider
  forceRedirection := forceRedirection
  enabled_rules := if completeProvider then [.star .anyc] else []
  disabled_rules := []
  enabled_rawRules := []
  disabled_rawRules := []
  enabled_referralMarketing := []
  disabled_referralMarketing := []
  enabled_exceptions := []
  disabled_exceptions := []
  enabled_redirections := []
  disabled_redirections := []

/-- The source helper `applyRule`: enabling inserts into the enabled collection and deletes
from the disabled one; disabling does the opposite. -/
def applyRule (en dis : List Regex) (rule : Regex) (isActive : Bool) :
    List Regex × List Regex :=
  if isActive then (insertKey en rule, removeKey dis rule)
  else (removeKey en rule, insertKey dis rule)

/-- The separator class `[\/\?#]` of a compiled field rule. -/
def sepCls : Regex := .cls false ['/', '?', '#']

/-- The alternative `(&|&amp;)` (JS group 2 of a compiled field rule). -/
def ampAlt : Regex := .alt (.chr '&') (litS "&amp;")

/-- The class `[^&]*`. -/
def nonAmpStar : Regex := .star (.cls true ['&'])

/-- The method `Provider.addRule` wraps the field name:
`"([\/\?#]|(&|&amp;))+(" + rule + "=[^&]*)"`. -/
def addRulePattern (rule : Regex) : Regex :=
  .cat (plusR (.group 1 (.alt sepCls (.group 2 ampAlt))))
    (.group 3 (.cat rule (.cat (.chr '=') nonAmpStar)))

/-- The method `Provider.addReferralMarketing` wraps with the tighter trailing bound:
`"([\/\?#]|(&|&amp;))+(" + rule + "=[^\/\?&]*)"`. -/
def addReferralPattern (rule : Regex) : Regex :=
  .cat (plusR (.group 1 (.alt sepCls (.group 2 ampAlt))))
    (.group 3 (.cat rule (.cat (.chr '=') (.star (.cls true ['/', '?', '&'])))))

def Provider.setURLPattern (p : Provider) (r : Regex) : Provider :=
  { p with urlPattern := r }

def Provider.addRule (p : Provider) (rule : Regex) (isActive : Bool := true) : Provider :=
  let pr := applyRule p.enabled_rules p.disabled_rules (addRulePattern rule) isActive
  { p with enabled_rules := pr.1, disabled_rules := pr.2 }

def Provider.addRawRule (p : Provider) (rule : Regex) (isActive : Bool := true) : Provider :=
  let pr := applyRule p.enabled_rawRules p.disabled_rawRules rule isActive
  { p with enabled_rawRules := pr.1, disabled_rawRules := pr.2 }

def Provider.addReferralMarketing (p : Provider) (rule : Regex) (isActive : Bool := true) :
    Provider :=
  let pr := applyRule p.enabled_referralMarketing p.disabled_referralMarketing
    (addReferralPattern rule) isActive
  { p with enabled_referralMarketing := pr.1, disabled_referralMarketing := pr.2 }

def Provider.addException (p : Provider) (exc : Regex) (isActive : Bool := true) : Provider :=
  let pr := applyRule p.enabled_exceptions p.disabled_exceptions exc isActive
  { p with enabled_exceptions := pr.1, disabled_exceptions := pr.2 }

def Provider.addRedirection (p : Provider) (re : Regex) (isActive : Bool := true) : Provider :=
  let pr := applyRule p.enabled_redirections p.disabled_redirections re isActive
  { p with enabled_redirections := pr.1, disabled_redirections := pr.2 }

/-- JS `Object.assign(target, source)`: keys already present keep their
position, new keys are appended in source order; the target object is
mutated. -/
def objectAssign (target source : List Regex) : List Regex :=
  target ++ source.filter (fun r => !(target.contains r))

/-- The method `Provider.getRules`: when referral-marketing enforcement is globally
disabled the enabled referral patterns are merged into the enabled field
rules via `Object.assign` — which mutates `enabled_rules`; the returned
provider carries that mutation. -/
def Provider.getRules (st : Storage) (p : Provider) : List Regex × Provider :=
  if !st.referralMarketing then
    let merged := objectAssign p.enabled_rules p.enabled_referralMarketing
    (merged, { p with enabled_rules := merged })
  else (p.enabled_rules, p)

def Provider.getRawRules (p : Provider) : List Regex := p.enabled_rawRules

def Provider.isCaneling (p : Provider) : Bool := p.canceling

/-- The method `Provider.matchException`: the `siteBlockedAlert` sentinel always counts
as an exception; otherwise the enabled exceptions are tested in order. -/
def Provider.matchException (p : Provider) (url : String) : Bool :=
  url == siteBlockedAlert || p.enabled_exceptions.any (fun e => testR e url)

/-- The method `Provider.matchURL`: the URL pattern matches and no exception does. -/
def Provider.matchURL (p : Provider) (url : String) : Bool :=
  testR p.urlPattern url && !(p.matchException url)

/-- The method `Provider.getRedirection`: first enabled redirection whose regex matches;
the result is that regex's capture group 1 (`exec(url)[1]`), which is
`undefined` (modelled `none`) when the pattern has no group 1. `none` at the
outer level models the `null` result when nothing matches. -/
def Provider.getRedirection (p : Provider) (url : String) : Option (Option String) :=
  (p.enabled_redirections.find? fun re => testR re url).map fun re => execG1 re url

/-! ## The rule engine: `removeFieldsFormURL` (`clearurls.js` lines 42-158) -/

/-- The result object; the redirect return `{redirect:true, url}` leaves
`changes`/`cancel` absent (`undefined`), which the caller's truthiness tests
read as `false`. -/
structure RFResult where
  changes : Bool
  url : String
  redirect : Bool
  cancel : Bool
deriving DecidableEq

/-- The raw-rule pass (lines 63-76): each raw rule is substituted away
globally; `changes` records whether any substitution altered the URL. -/
def rawPass : List Regex → String × Bool → String × Bool
  | [], acc => acc
  | r :: rs, (url, ch) =>
      let url2 := replAllS r url
      rawPass rs (url2, ch || url2 != url)

/-- Lines 78-83: the domain is the url with `"#.*"` removed when a fragment
exists, then — overriding that — with `"\?.*"` removed when a query exists. -/
def domainOf (url : String) : String :=
  let d : String := ""
  let d := if existsFragments url then replFirstS (.cat (.chr '#') (.star .anyc)) "" url else d
  if existsFields url then replFirstS (.cat (.chr '?') (.star .anyc)) "" url else d

/-- Lines 102-108: the `fields`/`fragments` strings rebuilt from the
extracted tokens. -/
def fieldsOf (url : String) : String :=
  if existsFields url then "?" ++ String.intercalate "&" (rmEmpty (extractFileds url)) else ""

def fragmentsOf (url : String) : String :=
  if existsFragments url then "#" ++ String.intercalate "&" (rmEmpty (extractFragments url)) else ""

/-- The field-rule pass (lines 114-137): each rule is substituted away
globally in both the fields string and the fragments string; `changes`
records whether any substitution altered either. -/
def fieldPass : List Regex → String × String × Bool → String × String × Bool
  | [], acc => acc
  | r :: rs, (fi, fr, ch) =>
      let fi2 := replAllS r fi
      let fr2 := replAllS r fr
      fieldPass rs (fi2, fr2, ch || fi2 != fi || fr2 != fr)

/-- Lines 139-144: reassembly of domain + cleaned query + cleaned fragment,
with the first literal `?`/`#` stripped from the cleaned strings and the
leftover `?&`/`#&` artifacts collapsed. -/
def reassemble (domain fi fr : String) : String :=
  let finalURL := domain
    ++ (if fi ≠ "" then "?" ++ replFirstS (litS "?") "" fi else "")
    ++ (if fr ≠ "" then "#" ++ replFirstS (litS "#") "" fr else "")
  replFirstS (.cat (.chr '#') (.chr '&')) "#"
    (replFirstS (.cat (.chr '?') (.chr '&')) "?" finalURL)

/-- JS `decodeURL(re)` where `re` may be `undefined` (group 1 unset):
`decodeURIComponent(undefined)` coerces to the string `"undefined"`. -/
def decodeRedirectTarget : Option String → String
  | some s => decodeURL s
  | none => "undefined"

/-- The function `removeFieldsFormURL(provider, pureUrl, quiet)` — the returned value
(log/badge effects omitted). -/
def removeFieldsFormURL (st : Storage) (provider : Provider) (pureUrl : String) : RFResult :=
  let rules := (provider.getRules st).1
  let rawRules := provider.getRawRules
  if st.localHostsSkipping && checkLocalURL pureUrl then
    ⟨false, pureUrl, false, false⟩
  else
    let rp := rawPass rawRules (pureUrl, false)
    let url1 := rp.1
    let domain := domainOf url1
    match provider.getRedirection url1 with
    | some re => ⟨false, decodeRedirectTarget re, true, false⟩
    | none =>
      let fields := fieldsOf url1
      let fragments := fragmentsOf url1
      let step :=
        if fields ≠ "" ∨ fragments ≠ "" then
          let fp := fieldPass rules (fields, fragments, false)
          (reassemble domain fp.1 fp.2.1, rp.2 || fp.2.2)
        else (url1, rp.2)
      let cancel := provider.isCaneling && st.domainBlocking
      ⟨step.2, step.1, false, cancel⟩

/-! ## The request dispatcher: `clearUrl` (`clearurls.js` lines 546-622) -/

structure Request where
  url : String
  type : String
deriving DecidableEq

/-- The externally visible action: `{}` (pass through), `{redirectUrl}`, or
`{cancel:true}` (for a `main_frame` together with a tab update, which is an
external effect not modelled). -/
inductive ReqAction where
  | empty : ReqAction
  | redirectTo : String → ReqAction
  | cancel : ReqAction
deriving DecidableEq

/-- The provider loop of `clearUrl` (lines 569-617): the engine result is
only recomputed for providers whose pattern matches, but the branches test
the most recently computed result regardless. -/
def clearUrlLoop (st : Storage) (request : Request) :
    List Provider → RFResult → ReqAction
  | [], _ => .empty
  | p :: ps, result =>
      let result := if p.matchURL request.url then removeFieldsFormURL st p request.url
        else result
      if result.redirect then
        if p.forceRedirection && (request.type == "main_frame") then .cancel
        else .redirectTo result.url
      else if result.cancel then
        if request.type == "main_frame" then .cancel
        else .redirectTo siteBlockedAlert
      else if result.changes then .redirectTo result.url
      else clearUrlLoop st request ps result

/-- The function `clearUrl(request)` — the returned action (the unconditional URL-field
counting at the top only feeds statistics and is omitted). -/
def clearUrl (st : Storage) (providers : List Provider) (request : Request) : ReqAction :=
  if st.globalStatus then
    if st.pingBlocking && st.pingRequestTypes.contains request.type then .cancel
    else clearUrlLoop st request providers ⟨false, "", false, false⟩
  else .empty

/-! ## The rule-update pipeline: `getHash` / `fetchFromURL`
(`clearurls.js` lines 236-285)

The two network fetches are oracles (`hashOk`/`hashBody` for the hash
endpoint, `ruleOk`/`ruleBody` for the rules endpoint; `Ok = false` covers a
rejected promise or a non-ok response), and `sha256` is the content-hash
function. `builtFrom` records the document text the registry was last rebuilt
from (`toObject`), `ruleDownloads` counts fetches of the rules endpoint. -/

/-- Modelled from the spec: `$.trim` — whitespace trimmed from both ends. -/
def isWhite (c : Char) : Bool := c == ' ' || c == '\t' || c == '\n' || c == '\r'

def jsTrim (s : String) : String :=
  String.mk (((s.data.dropWhile isWhite).reverse.dropWhile isWhite).reverse)

inductive HashStatus where
  | up_to_date : HashStatus
  | updated : HashStatus
  | hash_mismatch : HashStatus
  | unavailable : HashStatus
deriving DecidableEq

/-- Modelled from the spec: `storeHashStatus` records the status named by the
code's status codes 1/2/3 (`up_to_date`/`updated`/`hash_mismatch`); the
spec's interface also names `unavailable`, which no call site of the code
uses. -/
def storeHashStatus (code : Nat) : Option HashStatus :=
  if code = 1 then some .up_to_date
  else if code = 2 then some .updated
  else if code = 3 then some .hash_mismatch
  else none

structure UpdState where
  localDataHash : String
  cachedData : String
  dataHash : Option String
  storedDataHash : Option String
  hashStatus : Option HashStatus
  builtFrom : Option String
  ruleDownloads : Nat
deriving DecidableEq

/-- The function `fetchFromURL` (lines 263-285): one fetch of the rules endpoint; on an ok,
non-empty body the content hash is compared with the phase-1 hash: equal
adopts the download with status 2, unequal keeps the cached text with status
3; either way the registry is rebuilt from the current `ClearURLsData`. -/
def fetchFromURL (sha256 : String → String) (ruleOk : Bool) (ruleBody : String)
    (dataHash : String) (st : UpdState) : UpdState :=
  let st := { st with ruleDownloads := st.ruleDownloads + 1 }
  if ruleOk && jsTrim ruleBody != "" then
    let downloadedFileHash := sha256 ruleBody
    if jsTrim (sha256 ruleBody) == jsTrim dataHash then
      let st := { st with cachedData := ruleBody, storedDataHash := some downloadedFileHash,
                          hashStatus := storeHashStatus 2 }
      { st with builtFrom := some st.cachedData }
    else
      let st := { st with hashStatus := storeHashStatus 3 }
      { st with builtFrom := some st.cachedData }
  else st

/-- The function `getHash` (lines 236-256): fetch the remote hash; on failure or an empty
body only the global `dataHash` is set to the failure sentinel; on equal
trimmed hashes the registry is rebuilt from the cache with status 1; on
differing hashes `fetchFromURL` runs. -/
def getHash (sha256 : String → String) (hashOk : Bool) (hashBody : String)
    (ruleOk : Bool) (ruleBody : String) (st : UpdState) : UpdState :=
  if hashOk && jsTrim hashBody != "" then
    let st := { st with dataHash := some hashBody }
    if jsTrim hashBody != jsTrim st.localDataHash then
      fetchFromURL sha256 ruleOk ruleBody hashBody st
    else
      { st with builtFrom := some st.cachedData, hashStatus := storeHashStatus 1 }
  else
    { st with dataHash := none }

/-! ## Shared concrete instances used by witnesses and counterexamples -/

/-- Settings with everything relevant enabled and no local-host skipping. -/
def stdStorage : Storage := ⟨true, false, true, true, false, []⟩

/-- A provider with the single field rule for the literal name `utm` and a
URL pattern matching `x.com`. -/
def utmProvider : Provider :=
  ((newProvider "utm" false false).setURLPattern (litS "x.com")).addRule (litS "utm")

/-- Case-insensitive equality of character lists. -/
def ciListEq : List Char → List Char → Bool
  | [], [] => true
  | c :: cs, d :: ds => ciEq c d && ciListEq cs ds
  | _, _ => false

/-- One block consumed by one iteration of the compiled rule's separator
alternation: a `/`, `?`, `#` or `&`, or the HTML-escaped ampersand `&amp;`
up to case. -/
def SepBlock (b : List Char) : Prop :=
  b = ['/'] ∨ b = ['?'] ∨ b = ['#'] ∨ b = ['&'] ∨
    ciListEq b ['&', 'a', 'm', 'p', ';'] = true

/-- The domain as the specification words it: "the URL with any trailing
fragment (`#...`) or query (`?...`) removed", i.e. truncated at the first
occurrence of either delimiter. -/
def specDomainOf (url : String) : String :=
  String.mk (url.data.takeWhile fun c => c ≠ '#' ∧ c ≠ '?')

/-- A URL is fully cleaned for a provider when no raw rule's global
substitution alters it and no active field rule's global substitution alters
its extracted field or fragment strings. -/
def fullyCleaned (st : Storage) (p : Provider) (url : String) : Prop :=
  (∀ r ∈ p.getRawRules, replAllS r url = url) ∧
  (∀ r ∈ (p.getRules st).1,
    replAllS r (fieldsOf url) = fieldsOf url ∧
    replAllS r (fragmentsOf url) = fragmentsOf url)

/-- A provider with the single raw rule `ab`. -/
def rawProvider : Provider :=
  ((newProvider "raw" false false).setURLPattern (litS "x.com")).addRawRule (litS "ab")

/-- A provider with one redirection pattern capturing the `url=` value and a
removable `utm` field rule. -/
def redProvider : Provider :=
  (((newProvider "red" false false).setURLPattern (litS "x.com")).addRedirection
    (.cat (litS "out?url=") (.group 1 nonAmpStar))).addRule (litS "utm")

/-- A fresh update-pipeline state with an empty status, used to refute C8. -/
def c8State : UpdState := ⟨"h0", "cache", none, none, none, none, 0⟩

/-- A provider holding one referral-marketing pattern. -/
def refProvider : Provider := (newProvider "ref" false false).addReferralMarketing (litS "ref")

/-! ## Claim theorems -/

theorem mem_objectAssign_left {r : Regex} {t s : List Regex} (h : r ∈ t) :
    r ∈ objectAssign t s := List.mem_append_left _ h

theorem mem_objectAssign_right {r : Regex} {t s : List Regex} (h : r ∈ s) :
    r ∈ objectAssign t s := by
  by_cases ht : r ∈ t
  · exact List.mem_append_left _ ht
  · refine List.mem_append_right _ ?_
    simp [List.mem_filter, h, ht]

/-- Claim C3: `matchURL` is true exactly when the provider's URL pattern
matches and no enabled exception does, where the block-notice sentinel
`javascript:void(0)` always counts as an exception match; in particular
`matchURL` on the sentinel is false for every provider. -/
theorem C3_matchURL_exception_precedence :
    ∀ (p : Provider) (url : String),
      (p.matchURL url = true ↔
        (testR p.urlPattern url = true ∧ url ≠ siteBlockedAlert ∧
          ∀ e ∈ p.enabled_exceptions, testR e url = false)) ∧
      p.matchURL siteBlockedAlert = false := by
  intro p url
  constructor
  · simp [Provider.matchURL, Provider.matchException, Bool.and_eq_true,
      Bool.not_eq_true', Bool.or_eq_false_iff, List.any_eq_false]
  · simp [Provider.matchURL, Provider.matchException]

/-- The provider loop returns the pass-through action when the carried
result has no pending outcome and no remaining provider matches. -/
theorem clearUrlLoop_empty (st : Storage) (request : Request) :
    ∀ (provs : List Provider) (res : RFResult), res.redirect = false →
      res.cancel = false → res.changes = false →
      (∀ p ∈ provs, p.matchURL request.url = false) →
      clearUrlLoop st request provs res = .empty := by
  intro provs
  induction provs with
  | nil => intro res _ _ _ _; rfl
  | cons p ps ih =>
    intro res h1 h2 h3 hm
    have hp : p.matchURL request.url = false := hm p (List.mem_cons_self p ps)
    simp only [clearUrlLoop, hp, if_neg, Bool.false_eq_true, if_false, h1, h2, h3]
    exact ih res h1 h2 h3 fun q hq => hm q (List.mem_cons_of_mem p hq)

/-- Claim C5: `clearUrl` passes the request through unmodified when the engine
is globally disabled, and also when it is enabled, the request is not a
blocked ping type, and no provider matches the request URL. -/
theorem C5_clearUrl_passthrough :
    ∀ (st : Storage) (providers : List Provider) (request : Request),
      (st.globalStatus = false → clearUrl st providers request = .empty) ∧
      (st.globalStatus = true →
        ¬(st.pingBlocking = true ∧ request.type ∈ st.pingRequestTypes) →
        (∀ p ∈ providers, p.matchURL request.url = false) →
        clearUrl st providers request = .empty) := by
  intro st providers request
  constructor
  · intro h; simp [clearUrl, h]
  · intro hg hping hm
    have hping2 : (st.pingBlocking && st.pingRequestTypes.contains request.type) = false := by
      rcases Bool.eq_false_or_eq_true st.pingBlocking with hb | hb
      · have hnm : request.type ∉ st.pingRequestTypes := fun hmem => hping ⟨hb, hmem⟩
        simp only [hb, Bool.true_and]
        simpa using hnm
      · simp [hb]
    simp only [clearUrl, hg, if_true, hping2, Bool.false_eq_true, if_false]
    exact clearUrlLoop_empty st request providers _ rfl rfl rfl hm

/-- Witness for C5 at a concrete disabled engine and a concrete matching-free
registry. -/
theorem C5_witness :
    clearUrl { stdStorage with globalStatus := false } [utmProvider]
        ⟨"http://x.com/?utm=1", "xhr"⟩ = .empty ∧
      clearUrl stdStorage [utmProvider] ⟨"http://other.example/", "xhr"⟩ = .empty := by
  constructor
  · exact (C5_clearUrl_passthrough _ _ _).1 rfl
  · exact (C5_clearUrl_passthrough _ _ _).2 rfl (by decide) (by decide)

/-- A pattern present in a provider's enabled field rules is returned by
`getRules` under any settings. -/
theorem mem_getRules_of_mem_enabled (later : Storage) (q : Provider) (r : Regex)
    (h : r ∈ q.enabled_rules) : r ∈ (q.getRules later).1 := by
  rcases Bool.eq_false_or_eq_true later.referralMarketing with hb | hb
  · simp only [Provider.getRules, hb, Bool.not_true, Bool.false_eq_true, if_false]
    exact h
  · simp only [Provider.getRules, hb, Bool.not_false, if_true]
    exact mem_objectAssign_left h

/-- Claim C10: When referral-marketing enforcement is globally disabled,
`getRules` merges the enabled referral patterns into the provider's enabled
field-rule collection itself (the returned provider carries the mutation), so
every later `getRules` — under any settings, including re-enabled
enforcement — still returns them. -/
theorem C10_getRules_mutation_persists :
    ∀ (st later : Storage) (p : Provider) (r : Regex),
      st.referralMarketing = false →
      r ∈ p.enabled_referralMarketing →
      r ∈ (p.getRules st).2.enabled_rules ∧
      r ∈ ((p.getRules st).2.getRules later).1 := by
  intro st later p r hoff hr
  have hmem : r ∈ (p.getRules st).2.enabled_rules := by
    simp only [Provider.getRules, hoff, Bool.not_false, if_true]
    exact mem_objectAssign_right hr
  exact ⟨hmem, mem_getRules_of_mem_enabled later _ r hmem⟩

/-- Witness for C10: the `ref` pattern added while enforcement was off is
still returned by `getRules` after enforcement is back on. -/
theorem C10_witness :
    addReferralPattern (litS "ref") ∈
      ((refProvider.getRules { stdStorage with referralMarketing := false }).2.getRules
        stdStorage).1 :=
  (C10_getRules_mutation_persists { stdStorage with referralMarketing := false } stdStorage
    refProvider (addReferralPattern (litS "ref")) rfl (by decide)).2

/-- Claim C6: The hash pipeline: equal trimmed hashes cause no rule-set
download and a rebuild from the cached document with status `up_to_date`;
differing hashes cause exactly one download; a downloaded body whose content
hash disagrees with the phase-1 hash records status `hash_mismatch`. -/
theorem C6_hash_pipeline :
    ∀ (sha256 : String → String) (hOk rOk : Bool) (hBody rBody : String) (st : UpdState),
      (hOk = true → jsTrim hBody ≠ "" → jsTrim hBody = jsTrim st.localDataHash →
        getHash sha256 hOk hBody rOk rBody st =
          { st with dataHash := some hBody, builtFrom := some st.cachedData,
                    hashStatus := some .up_to_date }) ∧
      (hOk = true → jsTrim hBody ≠ "" → jsTrim hBody ≠ jsTrim st.localDataHash →
        (getHash sha256 hOk hBody rOk rBody st).ruleDownloads = st.ruleDownloads + 1) ∧
      (hOk = true → jsTrim hBody ≠ "" → jsTrim hBody ≠ jsTrim st.localDataHash →
        rOk = true → jsTrim rBody ≠ "" → jsTrim (sha256 rBody) ≠ jsTrim hBody →
        (getHash sha256 hOk hBody rOk rBody st).hashStatus = some .hash_mismatch) := by
  intro sha256 hOk rOk hBody rBody st
  refine ⟨?_, ?_, ?_⟩
  · intro h1 h2 h3
    have h4 : jsTrim st.localDataHash ≠ "" := h3 ▸ h2
    simp [getHash, h1, h2, h3, h4, storeHashStatus]
  · intro h1 h2 h3
    simp only [getHash, h1, h2, h3, bne_iff_ne, ne_eq, not_false_iff, if_true,
      Bool.true_and, if_neg]
    rcases Bool.eq_false_or_eq_true rOk with hr | hr
    · rcases Bool.eq_false_or_eq_true (jsTrim rBody != "") with he | he
      · simp only [fetchFromURL, hr, Bool.true_and, he]
        rcases Bool.eq_false_or_eq_true (jsTrim (sha256 rBody) == jsTrim hBody) with hq | hq
        · simp [hq]
        · simp [hq]
      · simp [fetchFromURL, hr, he]
    · simp [fetchFromURL, hr]
  · intro h1 h2 h3 h4 h5 h6
    simp [getHash, fetchFromURL, h1, h2, h3, h4, h5, h6, storeHashStatus]

/-- Witness for C6 at concrete runs of all three branches. -/
theorem C6_witness :
    (getHash (fun s => "H" ++ s) true "h0" true "doc" ⟨"h0", "cache", none, none, none, none, 0⟩ =
      ⟨"h0", "cache", some "h0", none, some .up_to_date, some "cache", 0⟩) ∧
    (getHash (fun s => "H" ++ s) true "Hdoc" true "doc" ⟨"h0", "cache", none, none, none, none, 0⟩).ruleDownloads = 1 ∧
    (getHash (fun s => "H" ++ s) true "h9" true "doc" ⟨"h0", "cache", none, none, none, none, 0⟩).hashStatus =
      some .hash_mismatch := by
  refine ⟨?_, ?_, ?_⟩
  · exact (C6_hash_pipeline (fun s => "H" ++ s) true true "h0" "doc" _).1 rfl (by decide) (by decide)
  · exact (C6_hash_pipeline (fun s => "H" ++ s) true true "Hdoc" "doc" _).2.1 rfl (by decide) (by decide)
  · exact (C6_hash_pipeline (fun s => "H" ++ s) true true "h9" "doc" _).2.2 rfl (by decide) (by decide)
      rfl (by decide) (by decide)

/-- Claim C8, counterexample: When the hash-phase fetch fails, the code records
no status at all (in particular not `unavailable`) and does not rebuild the
registry from the cached rule-set. -/
theorem C8_counterexample :
    (getHash (fun s => "H" ++ s) false "remote" true "doc" c8State).hashStatus ≠
        some .unavailable ∧
      (getHash (fun s => "H" ++ s) false "remote" true "doc" c8State).builtFrom = none := by
  constructor
  · decide
  · decide

/-- Claim C8, amended: If the hash-phase fetch fails or its trimmed body is
empty, the update is skipped — no download, the cached rule-set text is left
untouched — but no status is recorded (the previous status stands, not
`unavailable`) and the registry is not rebuilt in that invocation; only the
global `dataHash` is set to the failure sentinel. -/
theorem C8_amended_failure_skips_update :
    ∀ (sha256 : String → String) (hOk rOk : Bool) (hBody rBody : String) (st : UpdState),
      (hOk = false ∨ jsTrim hBody = "") →
      getHash sha256 hOk hBody rOk rBody st = { st with dataHash := none } := by
  intro sha256 hOk rOk hBody rBody st h
  rcases h with h | h
  · simp [getHash, h]
  · simp [getHash, h]

/-- Witness for the amended C8 at a concrete failed fetch. -/
theorem C8_witness :
    getHash (fun s => "H" ++ s) false "remote" true "doc" c8State =
      { c8State with dataHash := none } :=
  C8_amended_failure_skips_update (fun s => "H" ++ s) false true "remote" "doc" c8State
    (Or.inl rfl)

/-- Claim C2: When the provider finds an embedded redirect target (with a
captured group) in the raw-rule-cleaned URL, `removeFieldsFormURL` returns
the URL-decoded target with `redirect = true` immediately; the result carries
no field/fragment cleaning and no cancel, whatever removable fields the URL
contains. -/
theorem C2_redirect_takes_precedence :
    ∀ (st : Storage) (p : Provider) (pureUrl target : String),
      (st.localHostsSkipping && checkLocalURL pureUrl) = false →
      p.getRedirection (rawPass p.getRawRules (pureUrl, false)).1 = some (some target) →
      removeFieldsFormURL st p pureUrl = ⟨false, decodeURL target, true, false⟩ := by
  intro st p pureUrl target hl hr
  simp only [removeFieldsFormURL, hl, Bool.false_eq_true, if_false, hr,
    decodeRedirectTarget]

/-- Witness for C2: a URL that both matches the redirection pattern and
contains a removable `utm` field yields the decoded redirect target. -/
theorem C2_witness :
    removeFieldsFormURL stdStorage redProvider
        "http://x.com/out?url=http%3A%2F%2Fy.com%2F&utm=1" =
      ⟨false, decodeURL "http%3A%2F%2Fy.com%2F", true, false⟩ :=
  C2_redirect_takes_precedence stdStorage redProvider
    "http://x.com/out?url=http%3A%2F%2Fy.com%2F&utm=1" "http%3A%2F%2Fy.com%2F"
    (by decide) (by decide)

/-! ## Support for C9: `"#.*"`/`"\?.*"` replacement is truncation at the
first delimiter (on strings without line terminators) -/

/-- Characters below code 65 compare case-insensitively exactly as equality
(no letter lower-cases onto them). -/
theorem ciEq_punct {t : Char} (ht : t.toNat < 65) (c : Char) :
    ciEq c t = true ↔ c = t := by
  constructor
  · intro h
    simp only [ciEq, beq_iff_eq, lowN] at h
    split_ifs at h with h1 h2 h2
    · omega
    · omega
    · omega
    · have : c.val = t.val := by
        have hc : c.val.toNat = t.val.toNat := h
        exact UInt32.toNat.inj hc
      exact Char.ext this
  · intro h; subst h; simp [ciEq]

/-- Greedy `.*` consumes a whole line-terminator-free input: the
highest-priority outcome of `(.star .anyc)` leaves nothing. -/
theorem starM_any_head (g : Nat) :
    ∀ (cs : List Char) (f : Nat), (∀ c ∈ cs, isLineTerm c = false) → cs.length ≤ f →
      (starM (mtch .anyc g) f cs).head? = some ([], []) := by
  intro cs
  induction cs with
  | nil =>
    intro f _ _
    cases f with
    | zero => rfl
    | succ f => simp [starM, mtch]
  | cons c cs ih =>
    intro f hno hf
    cases f with
    | zero => simp at hf
    | succ f =>
      have hc : isLineTerm c = false := hno c (List.mem_cons_self c cs)
      have hf2 : cs.length ≤ f := by simp only [List.length_cons] at hf; omega
      have hih := ih f (fun a ha => hno a (List.mem_cons_of_mem c ha)) hf2
      rcases hexp : starM (mtch Regex.anyc g) f cs with _ | ⟨q, l⟩
      · rw [hexp] at hih; simp at hih
      · rw [hexp] at hih
        have hq : q = ([], []) := by simpa using hih
        subst hq
        simp [starM, mtch, hc, hexp]

/-- At a position whose first character is the delimiter, the pattern
`d + ".*"` matches and its highest-priority match swallows the whole
line-terminator-free remainder. -/
theorem rmatch_delim_head {d : Char} {c : Char} (cs : List Char)
    (hc : ciEq c d = true) (hno : ∀ a ∈ cs, isLineTerm a = false) :
    (rmatch (.cat (.chr d) (.star .anyc)) (c :: cs)).head? = some ([], []) := by
  have hstar := starM_any_head (cs.length + 1 + 1) cs (cs.length + 1 + 1) hno (by omega)
  rcases hexp : starM (mtch Regex.anyc (cs.length + 1 + 1)) (cs.length + 1 + 1) cs
    with _ | ⟨q, l⟩
  · rw [hexp] at hstar; simp at hstar
  · rw [hexp] at hstar
    have hq : q = ([], []) := by simpa using hstar
    subst hq
    simp [rmatch, mtch, hc, hexp]

/-- At a position whose first character is not the delimiter, `d + ".*"`
finds no match. -/
theorem rmatch_delim_none {d : Char} {c : Char} (cs : List Char)
    (hc : ciEq c d = false) :
    (rmatch (.cat (.chr d) (.star .anyc)) (c :: cs)).head? = none := by
  simp [rmatch, mtch, hc]

/-- First-match replacement `s.replace(new RegExp(d + ".*"), "")` truncates at the first occurrence
of the delimiter `d` (for punctuation `d` on line-terminator-free input). -/
theorem replFirst_delim_trunc {d : Char} (hd : d.toNat < 65) :
    ∀ (cs : List Char) (f : Nat), (∀ c ∈ cs, isLineTerm c = false) → cs.length ≤ f →
      replFirstF (.cat (.chr d) (.star .anyc)) [] f cs = cs.takeWhile (· ≠ d) := by
  intro cs
  induction cs with
  | nil =>
    intro f _ _
    cases f with
    | zero => rfl
    | succ f => rfl
  | cons c cs ih =>
    intro f hno hf
    cases f with
    | zero => simp at hf
    | succ f =>
      have hno2 : ∀ a ∈ cs, isLineTerm a = false := fun a ha => hno a (List.mem_cons_of_mem c ha)
      have hf2 : cs.length ≤ f := by simp only [List.length_cons] at hf; omega
      by_cases hc : c = d
      · have hci : ciEq c d = true := by subst hc; simp [ciEq]
        have hhead := rmatch_delim_head (d := d) cs hci hno2
        rw [List.takeWhile_cons_of_neg (by simp [hc])]
        simp only [replFirstF, hhead, List.nil_append]
      · have hci : ciEq c d = false := by
          rcases Bool.eq_false_or_eq_true (ciEq c d) with h | h
          · exact absurd ((ciEq_punct hd c).mp h) hc
          · exact h
        have hnone := rmatch_delim_none (d := d) (c := c) cs hci
        rw [List.takeWhile_cons_of_pos (by simp [hc])]
        simp only [replFirstF, hnone, ih f hno2 hf2]

/-- Claim C9, counterexample: For a URL whose `#` precedes its `?`, the code's
domain keeps the fragment text: it truncates only at the first `?`, not at
the first of the two delimiters, so it differs from the claim's "fragment or
query removed". -/
theorem C9_counterexample :
    domainOf "http://x/#f?a=1" ≠ specDomainOf "http://x/#f?a=1" ∧
      domainOf "http://x/#f?a=1" = "http://x/#f" ∧
      specDomainOf "http://x/#f?a=1" = "http://x/" := by
  refine ⟨by decide, by decide, by decide⟩

/-- Claim C9, amended: On URLs without line terminators, the domain used for
reassembly is the raw-rule-cleaned URL truncated at its first `?` when a
query exists, otherwise truncated at its first `#` when a fragment exists,
otherwise empty; when a `#` precedes the first `?`, the fragment text before
the `?` therefore stays in the domain. -/
theorem C9_amended_domain :
    ∀ url : String, (∀ c ∈ url.data, isLineTerm c = false) →
      domainOf url =
        (if existsFields url then String.mk (url.data.takeWhile (· ≠ '?'))
         else if existsFragments url then String.mk (url.data.takeWhile (· ≠ '#'))
         else "") := by
  intro url hno
  have hq := replFirst_delim_trunc (d := '?') (by decide) url.data url.data.length hno le_rfl
  have hh := replFirst_delim_trunc (d := '#') (by decide) url.data url.data.length hno le_rfl
  rcases Bool.eq_false_or_eq_true (existsFields url) with hf | hf
  · simp only [domainOf, hf, if_pos, replFirstS]
    exact congrArg String.mk hq
  · rcases Bool.eq_false_or_eq_true (existsFragments url) with hg | hg
    · simp only [domainOf, hf, hg, Bool.false_eq_true, if_false, if_pos, replFirstS]
      exact congrArg String.mk hh
    · simp [domainOf, hf, hg]

/-- Witness for the amended C9 at the both-delimiters input. -/
theorem C9_witness :
    domainOf "http://x/#f?a=1" =
      (if existsFields "http://x/#f?a=1" then
        String.mk ("http://x/#f?a=1".data.takeWhile (· ≠ '?'))
       else if existsFragments "http://x/#f?a=1" then
        String.mk ("http://x/#f?a=1".data.takeWhile (· ≠ '#'))
       else "") :=
  C9_amended_domain "http://x/#f?a=1" (by decide)

/-! ## Support for C1: the substitution passes leave their input unchanged
exactly when every rule's substitution does -/

theorem rawPass_of_pointwise :
    ∀ (rs : List Regex) (u : String) (b : Bool),
      (∀ r ∈ rs, replAllS r u = u) → rawPass rs (u, b) = (u, b) := by
  intro rs
  induction rs with
  | nil => intro u b _; rfl
  | cons r rs ih =>
    intro u b h
    have hr : replAllS r u = u := h r (List.mem_cons_self r rs)
    simp only [rawPass, hr, bne_self_eq_false, Bool.or_false]
    exact ih u b fun q hq => h q (List.mem_cons_of_mem r hq)

theorem rawPass_false_pointwise :
    ∀ (rs : List Regex) (u : String) (b : Bool),
      (rawPass rs (u, b)).2 = false → b = false ∧ ∀ r ∈ rs, replAllS r u = u := by
  intro rs
  induction rs with
  | nil =>
    intro u b h
    exact ⟨h, by simp⟩
  | cons r rs ih =>
    intro u b h
    simp only [rawPass] at h
    obtain ⟨hb, hall⟩ := ih (replAllS r u) (b || replAllS r u != u) h
    have hbu : b = false ∧ (replAllS r u != u) = false := by
      simpa using hb
    have hu : replAllS r u = u := by simpa using hbu.2
    refine ⟨hbu.1, ?_⟩
    intro q hq
    rcases List.mem_cons.mp hq with hq | hq
    · exact hq ▸ hu
    · have := hall q hq
      rwa [hu] at this

theorem fieldPass_of_pointwise :
    ∀ (rules : List Regex) (fi fr : String) (b : Bool),
      (∀ r ∈ rules, replAllS r fi = fi ∧ replAllS r fr = fr) →
      fieldPass rules (fi, fr, b) = (fi, fr, b) := by
  intro rules
  induction rules with
  | nil => intro fi fr b _; rfl
  | cons r rs ih =>
    intro fi fr b h
    have hr := h r (List.mem_cons_self r rs)
    simp only [fieldPass, hr.1, hr.2, bne_self_eq_false, Bool.or_false]
    exact ih fi fr b fun q hq => h q (List.mem_cons_of_mem r hq)

theorem fieldPass_false_pointwise :
    ∀ (rules : List Regex) (fi fr : String) (b : Bool),
      (fieldPass rules (fi, fr, b)).2.2 = false →
      b = false ∧ ∀ r ∈ rules, replAllS r fi = fi ∧ replAllS r fr = fr := by
  intro rules
  induction rules with
  | nil =>
    intro fi fr b h
    exact ⟨h, by simp⟩
  | cons r rs ih =>
    intro fi fr b h
    simp only [fieldPass] at h
    obtain ⟨hb, hall⟩ := ih (replAllS r fi) (replAllS r fr) _ h
    have hbu : b = false ∧ (replAllS r fi != fi) = false ∧ (replAllS r fr != fr) = false := by
      simpa [Bool.or_assoc] using hb
    have hfi : replAllS r fi = fi := by simpa using hbu.2.1
    have hfr : replAllS r fr = fr := by simpa using hbu.2.2
    refine ⟨hbu.1, ?_⟩
    intro q hq
    rcases List.mem_cons.mp hq with hq | hq
    · exact hq ▸ ⟨hfi, hfr⟩
    · have := hall q hq
      rwa [hfi, hfr] at this

/-- Global substitution of any rule leaves the empty string empty. -/
theorem replAllS_empty (r : Regex) : replAllS r "" = "" := rfl

/-- A non-redirecting, non-bypassed run reports `changes = false` exactly
when its input is fully cleaned. -/
theorem run_changes_false_iff (st : Storage) (p : Provider) (url : String)
    (hl : (st.localHostsSkipping && checkLocalURL url) = false)
    (hr : p.getRedirection (rawPass p.getRawRules (url, false)).1 = none) :
    ((removeFieldsFormURL st p url).changes = false ↔ fullyCleaned st p url) := by
  simp only [removeFieldsFormURL, hl, Bool.false_eq_true, if_false, hr]
  by_cases hcond : fieldsOf (rawPass p.getRawRules (url, false)).1 ≠ "" ∨
      fragmentsOf (rawPass p.getRawRules (url, false)).1 ≠ ""
  · simp only [hcond, if_pos]
    constructor
    · intro h
      have hsplit : (rawPass p.getRawRules (url, false)).2 = false ∧
          (fieldPass (p.getRules st).1
            (fieldsOf (rawPass p.getRawRules (url, false)).1,
             fragmentsOf (rawPass p.getRawRules (url, false)).1, false)).2.2 = false := by
        simpa using h
      obtain ⟨hraw, hf⟩ := hsplit
      have hrawpt := (rawPass_false_pointwise p.getRawRules url false hraw).2
      have hurl1 : (rawPass p.getRawRules (url, false)).1 = url := by
        rw [rawPass_of_pointwise p.getRawRules url false hrawpt]
      rw [hurl1] at hf
      exact ⟨hrawpt, (fieldPass_false_pointwise _ _ _ _ hf).2⟩
    · intro h
      have hrp : rawPass p.getRawRules (url, false) = (url, false) :=
        rawPass_of_pointwise p.getRawRules url false h.1
      rw [hrp]
      have hfp := fieldPass_of_pointwise (p.getRules st).1 (fieldsOf url) (fragmentsOf url)
        false h.2
      rw [hfp]
      rfl
  · simp only [hcond, if_neg]
    push_neg at hcond
    constructor
    · intro h
      have hraw : (rawPass p.getRawRules (url, false)).2 = false := by simpa using h
      have hrawpt := (rawPass_false_pointwise p.getRawRules url false hraw).2
      have hurl1 : (rawPass p.getRawRules (url, false)).1 = url := by
        rw [rawPass_of_pointwise p.getRawRules url false hrawpt]
      refine ⟨hrawpt, ?_⟩
      intro q _
      rw [hurl1] at hcond
      rw [hcond.1, hcond.2]
      exact ⟨replAllS_empty q, replAllS_empty q⟩
    · intro h
      have hrp : rawPass p.getRawRules (url, false) = (url, false) :=
        rawPass_of_pointwise p.getRawRules url false h.1
      simp [hrp]

/-- Claim C1, amended: Re-running the engine on its own (non-redirect,
non-cancelled) output need not yield `changes = false`: the second run
reports `changes = false` exactly when that output is fully cleaned (no raw
rule alters it, no field rule alters its re-extracted field/fragment
strings), and the single-pass output is not always fully cleaned. -/
theorem C1_amended_second_run_iff :
    ∀ (st : Storage) (p : Provider) (pureUrl : String),
      (removeFieldsFormURL st p pureUrl).redirect = false →
      (removeFieldsFormURL st p pureUrl).cancel = false →
      (st.localHostsSkipping &&
        checkLocalURL (removeFieldsFormURL st p pureUrl).url) = false →
      p.getRedirection
        (rawPass p.getRawRules ((removeFieldsFormURL st p pureUrl).url, false)).1 = none →
      ((removeFieldsFormURL st p (removeFieldsFormURL st p pureUrl).url).changes = false ↔
        fullyCleaned st p (removeFieldsFormURL st p pureUrl).url) :=
  fun st p _ _ _ hl hr => run_changes_false_iff st p _ hl hr

/-- Claim C1, counterexample: A raw rule whose removal creates a fresh match:
the first (non-redirect, non-cancelled) run rewrites `…/aabb` to `…/ab`, and
the second run on that output still reports `changes = true`. -/
theorem C1_counterexample :
    (removeFieldsFormURL stdStorage rawProvider "http://x.com/aabb").redirect = false ∧
      (removeFieldsFormURL stdStorage rawProvider "http://x.com/aabb").cancel = false ∧
      (removeFieldsFormURL stdStorage rawProvider "http://x.com/aabb").url =
        "http://x.com/ab" ∧
      (removeFieldsFormURL stdStorage rawProvider
        (removeFieldsFormURL stdStorage rawProvider "http://x.com/aabb").url).changes = true := by
  refine ⟨by decide, by decide, by decide, by decide⟩

/-- Witness for the amended C1: on a URL whose first run removes `utm=1`,
the second run reports `changes = false` iff the output is fully cleaned. -/
theorem C1_witness :
    (removeFieldsFormURL stdStorage utmProvider
        (removeFieldsFormURL stdStorage utmProvider "http://x.com/?utm=1&a=2").url).changes =
        false ↔
      fullyCleaned stdStorage utmProvider
        (removeFieldsFormURL stdStorage utmProvider "http://x.com/?utm=1&a=2").url :=
  C1_amended_second_run_iff stdStorage utmProvider "http://x.com/?utm=1&a=2"
    (by decide) (by decide) (by decide) (by decide)

/-! ## Support for C4: every match of a compiled field rule decomposes as
separator-run ++ name ++ `=` ++ non-ampersand run -/

theorem mem_mtch_chr {c : Char} {f : Nat} {cs rest : List Char} {g : Groups}
    (h : (rest, g) ∈ mtch (.chr c) f cs) :
    ∃ d, cs = d :: rest ∧ ciEq d c = true ∧ g = [] := by
  match cs with
  | [] => simp [mtch] at h
  | d :: cs =>
    by_cases hd : ciEq d c = true
    · simp only [mtch, hd, if_pos, List.mem_singleton, Prod.mk.injEq] at h
      exact ⟨d, by rw [h.1], hd, h.2⟩
    · simp only [mtch, hd, Bool.false_eq_true, if_neg, List.not_mem_nil] at h
      exact absurd h (by simp [Bool.eq_false_iff.mpr hd])

theorem mem_mtch_cls {neg : Bool} {l : List Char} {f : Nat} {cs rest : List Char} {g : Groups}
    (h : (rest, g) ∈ mtch (.cls neg l) f cs) :
    ∃ d, cs = d :: rest ∧ clsOK neg l d = true ∧ g = [] := by
  match cs with
  | [] => simp [mtch] at h
  | d :: cs =>
    by_cases hd : clsOK neg l d = true
    · simp only [mtch, hd, if_pos, List.mem_singleton, Prod.mk.injEq] at h
      exact ⟨d, by rw [h.1], hd, h.2⟩
    · rw [mtch, if_neg (by simp [hd])] at h
      simp at h

theorem mem_mtch_cat {r1 r2 : Regex} {f : Nat} {cs rest : List Char} {g : Groups}
    (h : (rest, g) ∈ mtch (.cat r1 r2) f cs) :
    ∃ mid g1 g2, (mid, g1) ∈ mtch r1 f cs ∧ (rest, g2) ∈ mtch r2 f mid ∧ g = g2 ++ g1 := by
  simp only [mtch, List.mem_flatMap, List.mem_map] at h
  obtain ⟨p, hp, q, hq, heq⟩ := h
  have h1 : q.1 = rest := congrArg Prod.fst heq
  have h2 : q.2 ++ p.2 = g := congrArg Prod.snd heq
  exact ⟨p.1, p.2, q.2, hp, h1 ▸ hq, h2.symm⟩

theorem mem_mtch_alt {r1 r2 : Regex} {f : Nat} {cs rest : List Char} {g : Groups}
    (h : (rest, g) ∈ mtch (.alt r1 r2) f cs) :
    (rest, g) ∈ mtch r1 f cs ∨ (rest, g) ∈ mtch r2 f cs := by
  simpa only [mtch, List.mem_append] using h

theorem mem_mtch_group {n : Nat} {r : Regex} {f : Nat} {cs rest : List Char} {g : Groups}
    (h : (rest, g) ∈ mtch (.group n r) f cs) :
    ∃ g2, (rest, g2) ∈ mtch r f cs := by
  simp only [mtch, List.mem_map] at h
  obtain ⟨p, hp, heq⟩ := h
  have h1 : p.1 = rest := congrArg Prod.fst heq
  exact ⟨p.2, h1 ▸ hp⟩

theorem mem_mtch_lit :
    ∀ (w : List Char) {f : Nat} {cs rest : List Char} {g : Groups},
      (rest, g) ∈ mtch (litL w) f cs →
      ∃ w2, cs = w2 ++ rest ∧ ciListEq w2 w = true := by
  intro w
  induction w with
  | nil =>
    intro f cs rest g h
    simp only [litL, mtch, List.mem_singleton, Prod.mk.injEq] at h
    exact ⟨[], by simp [h.1], rfl⟩
  | cons c w ih =>
    intro f cs rest g h
    obtain ⟨mid, g1, g2, h1, h2, _⟩ := mem_mtch_cat h
    obtain ⟨d, hcs, hdc, _⟩ := mem_mtch_chr h1
    obtain ⟨w2, hmid, hw2⟩ := ih h2
    exact ⟨d :: w2, by simp [hcs, hmid], by simp [ciListEq, hdc, hw2]⟩

/-- Soundness of the star driver: whatever it consumes splits into blocks
each consumed by one body iteration. -/
theorem starM_sound (m : List Char → MRes) (P : List Char → Prop)
    (hm : ∀ cs rest g, (rest, g) ∈ m cs → ∃ b, cs = b ++ rest ∧ P b) :
    ∀ (f : Nat) (cs rest : List Char) (g : Groups), (rest, g) ∈ starM m f cs →
      ∃ bs : List (List Char), cs = bs.flatten ++ rest ∧ ∀ b ∈ bs, P b := by
  intro f
  induction f with
  | zero =>
    intro cs rest g h
    simp only [starM, List.mem_singleton, Prod.mk.injEq] at h
    exact ⟨[], by simp [h.1], by simp⟩
  | succ f ih =>
    intro cs rest g h
    simp only [starM, List.mem_append, List.mem_flatMap, List.mem_singleton] at h
    rcases h with ⟨p, hp, hin⟩ | heq
    · by_cases hlt : p.1.length < cs.length
      · rw [if_pos hlt] at hin
        simp only [List.mem_map] at hin
        obtain ⟨q, hq, heq⟩ := hin
        have hq1 : q.1 = rest := congrArg Prod.fst heq
        obtain ⟨b, hb, hPb⟩ := hm cs p.1 p.2 hp
        obtain ⟨bs, hbs, hall⟩ := ih p.1 rest q.2 (hq1 ▸ hq)
        refine ⟨b :: bs, ?_, ?_⟩
        · simp [hb, hbs]
        · intro x hx
          rcases List.mem_cons.mp hx with hx | hx
          · exact hx ▸ hPb
          · exact hall x hx
      · rw [if_neg hlt] at hin
        simp at hin
    · have h1 : rest = cs := congrArg Prod.fst heq
      exact ⟨[], by simp [h1], by simp⟩

/-- Soundness of the separator alternation: one iteration consumes exactly
one separator block. -/
theorem mem_sepUnit_sound {f : Nat} {cs rest : List Char} {g : Groups}
    (h : (rest, g) ∈ mtch (.group 1 (.alt sepCls (.group 2 ampAlt))) f cs) :
    ∃ b, cs = b ++ rest ∧ SepBlock b := by
  obtain ⟨g1, h⟩ := mem_mtch_group h
  rcases mem_mtch_alt h with h | h
  · obtain ⟨d, hcs, hd, _⟩ := mem_mtch_cls h
    have hany : d = '/' ∨ d = '?' ∨ d = '#' := by
      have hex : ∃ x ∈ ['/', '?', '#'], ciEq d x = true := by
        simpa [clsOK, List.any_eq_true] using hd
      obtain ⟨x, hx, hcx⟩ := hex
      simp only [List.mem_cons, List.not_mem_nil, or_false] at hx
      rcases hx with hx | hx | hx
      · exact Or.inl ((ciEq_punct (by decide) d).mp (hx ▸ hcx))
      · exact Or.inr (Or.inl ((ciEq_punct (by decide) d).mp (hx ▸ hcx)))
      · exact Or.inr (Or.inr ((ciEq_punct (by decide) d).mp (hx ▸ hcx)))
    refine ⟨[d], by simp [hcs], ?_⟩
    rcases hany with h | h | h
    · exact Or.inl (by rw [h])
    · exact Or.inr (Or.inl (by rw [h]))
    · exact Or.inr (Or.inr (Or.inl (by rw [h])))
  · obtain ⟨g2, h⟩ := mem_mtch_group h
    rcases mem_mtch_alt h with h | h
    · obtain ⟨d, hcs, hd, _⟩ := mem_mtch_chr h
      have : d = '&' := (ciEq_punct (by decide) d).mp hd
      exact ⟨[d], by simp [hcs], Or.inr (Or.inr (Or.inr (Or.inl (by rw [this]))))⟩
    · obtain ⟨w2, hcs, hw⟩ := mem_mtch_lit _ h
      exact ⟨w2, hcs, Or.inr (Or.inr (Or.inr (Or.inr hw)))⟩

/-- Soundness of the left-to-right scan: a successful search is a match of
some suffix at some split position. -/
theorem searchF_sound (r : Regex) :
    ∀ (f : Nat) (cs : List Char) (g : Groups), searchF r f cs = some g →
      ∃ pre suf rest, cs = pre ++ suf ∧ (rest, g) ∈ rmatch r suf := by
  intro f
  induction f with
  | zero =>
    intro cs g h
    cases cs with
    | nil =>
      simp only [searchF, Option.map_eq_some'] at h
      obtain ⟨p, hp, hg⟩ := h
      exact ⟨[], [], p.1, rfl, by rw [← hg]; exact List.mem_of_mem_head? hp⟩
    | cons c cs => simp [searchF] at h
  | succ f ih =>
    intro cs g h
    cases cs with
    | nil =>
      simp only [searchF, Option.map_eq_some'] at h
      obtain ⟨p, hp, hg⟩ := h
      exact ⟨[], [], p.1, rfl, by rw [← hg]; exact List.mem_of_mem_head? hp⟩
    | cons c cs =>
      rw [searchF] at h
      cases hh : (rmatch r (c :: cs)).head? with
      | some p =>
        rw [hh] at h
        have hg : p.2 = g := by simpa using h
        refine ⟨[], c :: cs, p.1, rfl, ?_⟩
        rw [← hg]
        exact List.mem_of_mem_head? hh
      | none =>
        rw [hh] at h
        obtain ⟨pre, suf, rest, hcs, hm⟩ := ih cs g h
        exact ⟨c :: pre, suf, rest, by simp [hcs], hm⟩

/-- Claim C4: A compiled field rule matches only where the (case-insensitive)
field name is immediately preceded by a separator block — `/`, `?`, `#`, `&`
or HTML-escaped `&amp;` — and followed by `=` and a run of non-ampersand
characters; in particular, the rule for `r` does not match a URL whose path
merely contains a segment named `r` with no trailing `=`. -/
theorem C4_rule_separator_bounded :
    (∀ (name : String) (s : String),
      testR (addRulePattern (litS name)) s = true →
      ∃ (u b w t v : List Char),
        s.data = u ++ b ++ w ++ '=' :: t ++ v ∧
        SepBlock b ∧ ciListEq w name.data = true ∧ ∀ c ∈ t, c ≠ '&') ∧
    testR (addRulePattern (litS "r")) "http://host/r/x" = false := by
  constructor
  · intro name s h
    rw [testR] at h
    obtain ⟨g, hg⟩ := Option.isSome_iff_exists.mp h
    obtain ⟨pre, suf, rest, hcs, hm⟩ := searchF_sound _ _ _ _ hg
    obtain ⟨mid, g1, g2, hplus, hbody, _⟩ := mem_mtch_cat hm
    obtain ⟨rem0, g3, g4, hfirst, hstar, _⟩ := mem_mtch_cat hplus
    obtain ⟨b0, hsuf, hb0⟩ := mem_sepUnit_sound hfirst
    obtain ⟨bs0, hrem0, hall0⟩ := starM_sound _ SepBlock
      (fun cs2 rest2 g2 h2 => mem_sepUnit_sound h2) _ _ _ _ hstar
    obtain ⟨g5, hin3⟩ := mem_mtch_group hbody
    obtain ⟨rem1, g6, g7, hlit, htail, _⟩ := mem_mtch_cat hin3
    obtain ⟨w, hmid, hw⟩ := mem_mtch_lit _ hlit
    obtain ⟨rem2, g8, g9, heq, hns, _⟩ := mem_mtch_cat htail
    obtain ⟨d, hrem1, hdeq, _⟩ := mem_mtch_chr heq
    have hdval : d = '=' := (ciEq_punct (by decide) d).mp hdeq
    obtain ⟨bs1, hrem2, hall1⟩ := starM_sound _
      (fun bl => ∃ c, bl = [c] ∧ ciEq c '&' = false)
      (fun cs2 rest2 g2 h2 => by
        obtain ⟨d2, hcs2, hd2, _⟩ := mem_mtch_cls h2
        refine ⟨[d2], hcs2, d2, rfl, ?_⟩
        simpa [clsOK] using hd2) _ _ _ _ hns
    have hne : ∀ c ∈ bs1.flatten, c ≠ '&' := by
      intro c hc hcamp
      obtain ⟨bl, hbl, hcbl⟩ := List.mem_flatten.mp hc
      obtain ⟨c2, hbl2, hc2⟩ := hall1 bl hbl
      rw [hbl2, List.mem_singleton] at hcbl
      subst hcbl
      subst hcamp
      simp [ciEq] at hc2
    rcases List.eq_nil_or_concat (b0 :: bs0) with hnil | ⟨init, bl, hconcat⟩
    · simp at hnil
    · have hblocks : ∀ x ∈ init ++ [bl], SepBlock x := by
        rw [List.concat_eq_append] at hconcat
        rw [← hconcat]
        intro x hx
        rcases List.mem_cons.mp hx with hx | hx
        · exact hx ▸ hb0
        · exact hall0 x hx
      refine ⟨pre ++ init.flatten, bl, w, bs1.flatten, rest, ?_, ?_, hw, hne⟩
      · have hflat : b0 ++ bs0.flatten = init.flatten ++ bl := by
          have : (b0 :: bs0).flatten = (init ++ [bl]).flatten := by
            rw [← List.concat_eq_append, ← hconcat]
          simpa [List.flatten_append] using this
        rw [hcs, hsuf, hrem0, hmid, hrem1, hdval, hrem2]
        rw [← List.append_assoc b0 bs0.flatten, hflat]
        simp [List.append_assoc]
      · exact hblocks bl (List.mem_append_right _ (List.mem_singleton.mpr rfl))
  · decide

/-- Witness for C4: the rule for `r` matching `?r=1` decomposes with the
separator `?` before `r` and `=` after it. -/
theorem C4_witness :
    ∃ (u b w t v : List Char),
      "?r=1".data = u ++ b ++ w ++ '=' :: t ++ v ∧
      SepBlock b ∧ ciListEq w "r".data = true ∧ ∀ c ∈ t, c ≠ '&' :=
  C4_rule_separator_bounded.1 "r" "?r=1" (by decide)
